import Mathlib

/-!
The `wallet` package of smcli, hex codec and wallet construction: a shallow
embedding of `wallet/wallet.go`.

* Go byte slices and Go strings are lists of bytes (`Fin 256`).
* A Go function returning `(value, error)` returns a pair whose second
  component is `none` for a `nil` error.
* Library functions (`encoding/hex`, `encoding/json`, `bip39`) and functions
  of the repository that live in other files (`NewMasterKeyPair`,
  `NewChildKeyPair`, `common.MaxAccountsPerWallet`, `common.NowTimeString`)
  are either embedded from their Go source (`encoding/hex`) or taken as
  parameters.
-/

namespace Smcli

/-! ## Bytes and strings -/

/-- A Go `byte`. -/
abbrev Byte := Fin 256

/-- The bytes `0`-`9`, `a`-`f`, `A`-`F`. -/
def IsHexChar (ch : Byte) : Prop :=
  (48 ≤ ch.val ∧ ch.val ≤ 57) ∨ (97 ≤ ch.val ∧ ch.val ≤ 102) ∨ (65 ≤ ch.val ∧ ch.val ≤ 70)

instance (ch : Byte) : Decidable (IsHexChar ch) := by
  unfold IsHexChar; infer_instance

/-- The bytes `0`-`9`, `a`-`f`. -/
def IsLowerHexChar (ch : Byte) : Prop :=
  (48 ≤ ch.val ∧ ch.val ≤ 57) ∨ (97 ≤ ch.val ∧ ch.val ≤ 102)

instance (ch : Byte) : Decidable (IsLowerHexChar ch) := by
  unfold IsLowerHexChar; infer_instance

/-- ASCII lower-casing of one byte: `A`-`Z` are moved to `a`-`z`, every other
byte is kept. -/
def toLowerByte (ch : Byte) : Byte :=
  if 65 ≤ ch.val ∧ ch.val ≤ 90 then Fin.ofNat (ch.val + 32) else ch

/-- A string converted to lowercase, byte by byte. -/
def toLower (s : List Byte) : List Byte := s.map toLowerByte

/-- The JSON text of a string that needs no escaping: the string between two
double quotes. -/
def quote (s : List Byte) : List Byte := 34 :: (s ++ [34])

/-! ## `encoding/hex` -/

/-- The constant `hextable = "0123456789abcdef"` of `encoding/hex`. -/
def hextable : List Byte :=
  [48, 49, 50, 51, 52, 53, 54, 55, 56, 57, 97, 98, 99, 100, 101, 102]

/-- The function `hex.EncodeToString`: for each byte `v` of the source the two characters
`hextable[v>>4]` and `hextable[v&0x0f]`. -/
def EncodeToString : List Byte → List Byte
  | [] => []
  | v :: src =>
    hextable.getD (v.val >>> 4) 0 :: hextable.getD (v.val &&& 0x0f) 0 :: EncodeToString src

/-- The table `reverseHexTable` of `encoding/hex`: the value of a hex digit,
`0xff` for every other byte. -/
def reverseHexTable (c : Byte) : Nat :=
  if 48 ≤ c.val ∧ c.val ≤ 57 then c.val - 48
  else if 97 ≤ c.val ∧ c.val ≤ 102 then c.val - 97 + 10
  else if 65 ≤ c.val ∧ c.val ≤ 70 then c.val - 65 + 10
  else 0xff

/-- The errors of `encoding/hex`. -/
inductive HexError where
  | InvalidByteError (b : Byte)
  | ErrLength
  deriving DecidableEq, Repr

/-- The loop of `hex.Decode`: `dst` holds the bytes written so far, the second
argument is the unread part of the source. Returns the bytes written and the
error. A pair of characters is checked left to right; a trailing single
character is reported as an invalid byte when it is one, as a bad length
otherwise. -/
def Decode : List Byte → List Byte → List Byte × Option HexError
  | dst, p :: q :: src =>
    let a := reverseHexTable p
    let b := reverseHexTable q
    if a > 0x0f then (dst, some (.InvalidByteError p))
    else if b > 0x0f then (dst, some (.InvalidByteError q))
    else Decode (dst ++ [Fin.ofNat (((a <<< 4) % 256) ||| b)]) src
  | dst, [p] =>
    if reverseHexTable p > 0x0f then (dst, some (.InvalidByteError p))
    else (dst, some .ErrLength)
  | dst, [] => (dst, none)

/-- The function `hex.DecodeString`: returns `src[:n], err`, the bytes decoded before the
error together with the error. -/
def DecodeString (s : List Byte) : List Byte × Option HexError := Decode [] s

/-! ## `encoding/json`, as far as the codec uses it -/

deriving instance DecidableEq for Except

/-- The two entry points of `encoding/json` that the codec calls, for an
error type `JE`:
`MarshalString s` is `json.Marshal(s)` for a Go string `s`;
`UnmarshalString data` is `json.Unmarshal(data, &hexString)` for a fresh
string variable, `.ok s` meaning a `nil` error with `hexString = s`
afterwards. -/
structure JSON (JE : Type) where
  MarshalString : List Byte → Except JE (List Byte)
  UnmarshalString : List Byte → Except JE (List Byte)

/-- The behaviour of `encoding/json` on strings of hex digits: no character is
escaped, so marshalling puts the string between double quotes and
unmarshalling the quoted string gives the string back. -/
def JSON.QuotesHex {JE : Type} (j : JSON JE) : Prop :=
  ∀ s : List Byte, (∀ ch ∈ s, IsHexChar ch) →
    j.MarshalString s = .ok (quote s) ∧ j.UnmarshalString (quote s) = .ok s

/-- An instance of the interface that handles exactly the quoted strings of
printable ASCII characters other than the double quote, the backslash and the
characters `<`, `>`, `&`; everything else is refused. Used to evaluate the
codec on concrete inputs. -/
def plainJSON : JSON Unit where
  MarshalString s :=
    if s.all (fun ch => decide (32 ≤ ch.val ∧ ch.val < 127 ∧ ch.val ≠ 34 ∧ ch.val ≠ 92
        ∧ ch.val ≠ 60 ∧ ch.val ≠ 62 ∧ ch.val ≠ 38)) then .ok (quote s)
    else .error ()
  UnmarshalString data :=
    match data with
    | [] => .error ()
    | q :: rest =>
      if q.val = 34 ∧ rest.getLast? = some 34
          ∧ rest.dropLast.all (fun ch => decide (32 ≤ ch.val ∧ ch.val < 127 ∧ ch.val ≠ 34
            ∧ ch.val ≠ 92)) then
        .ok rest.dropLast
      else .error ()

/-! ## `hexEncodedCiphertext` -/

/-- The error returned by `UnmarshalJSON`: the one of `json.Unmarshal` or the
one of `hex.DecodeString`. -/
inductive CodecError (JE : Type) where
  | json (e : JE)
  | hex (e : HexError)
  deriving DecidableEq, Repr

/-- The type `hexEncodedCiphertext`, a `[]byte`. -/
abbrev hexEncodedCiphertext := List Byte

/-- The method `(*hexEncodedCiphertext).MarshalJSON`:
`json.Marshal(hex.EncodeToString(*c))`. -/
def MarshalJSON {JE : Type} (j : JSON JE) (c : hexEncodedCiphertext) : Except JE (List Byte) :=
  j.MarshalString (EncodeToString c)

/-- The method `(*hexEncodedCiphertext).UnmarshalJSON`: `c` is the receiver before the
call; the result is the receiver after the call and the error. When
`json.Unmarshal` fails the receiver is untouched; otherwise the receiver is
assigned what `hex.DecodeString` returns, also when that reports an error. -/
def UnmarshalJSON {JE : Type} (j : JSON JE) (c : hexEncodedCiphertext) (data : List Byte) :
    hexEncodedCiphertext × Option (CodecError JE) :=
  match j.UnmarshalString data with
  | .error e => (c, some (.json e))
  | .ok hexString =>
    let r := DecodeString hexString
    (r.1, r.2.map .hex)

/-! ## Byte slices -/

/-- A Go `[]byte` value: `elems` are the `len` elements it shows, `spare`
is the rest of its backing array, up to `cap`. -/
structure ByteSlice where
  elems : List Byte
  spare : List Byte
  deriving DecidableEq, Repr

/-- Go `len(s)`. -/
def ByteSlice.len (s : ByteSlice) : Nat := s.elems.length

/-- Go `cap(s)`. -/
def ByteSlice.cap (s : ByteSlice) : Nat := s.elems.length + s.spare.length

/-- The slice expression `s[:high]`: in bounds exactly when `high ≤ cap(s)`
(it may reach into the spare capacity); `none` is the run-time panic
"slice bounds out of range". -/
def ByteSlice.sliceTo (s : ByteSlice) (high : Nat) : Option ByteSlice :=
  if high ≤ s.cap then
    some ⟨(s.elems ++ s.spare).take high, (s.elems ++ s.spare).drop high⟩
  else none

/-- The constant `ed25519.SeedSize`. -/
def SeedSize : Nat := 32

/-! ## The wallet -/

/-- The type `walletMetadata`. -/
structure walletMetadata where
  DisplayName : String
  Created : String
  GenesisID : String
  deriving DecidableEq, Repr

/-- The type `walletSecrets`, for key pairs of type `KP`. -/
structure walletSecrets (KP : Type) where
  Mnemonic : String
  Accounts : List KP
  deriving DecidableEq, Repr

/-- The type `Wallet`. -/
structure Wallet (KP : Type) where
  Meta : walletMetadata
  Secrets : walletSecrets KP
  deriving DecidableEq, Repr

/-- The method `(*Wallet).Mnemonic`. -/
def Wallet.Mnemonic {KP : Type} (w : Wallet KP) : String := w.Secrets.Mnemonic

/-- An `error` value of the package: one made by `fmt.Errorf` in this file,
with its message, or one handed up unchanged from key derivation. -/
inductive Error (E : Type) where
  | Errorf (msg : String)
  | propagated (e : E)
  deriving DecidableEq, Repr

/-- What the wallet code calls and does not define: the constant
`common.MaxAccountsPerWallet`, the library functions `bip39.IsMnemonicValid`
and `bip39.NewSeed`, and the key derivation functions `NewMasterKeyPair` and
`(*EDKeyPair).NewChildKeyPair`, which return a key pair of type `KP` or an
error of type `E`. -/
structure Env (KP E : Type) where
  MaxAccountsPerWallet : Int
  IsMnemonicValid : String → Bool
  NewSeed : String → String → ByteSlice
  NewMasterKeyPair : List Byte → Except E KP
  NewChildKeyPair : KP → Int → Except E KP

/-- A call made to one of the functions the wallet code does not define. -/
inductive Call where
  | IsMnemonicValid (m : String)
  | NewSeed (m : String) (passphrase : String)
  | NewMasterKeyPair (seed : List Byte)
  | NewChildKeyPair (i : Int)
  | NowTimeString
  deriving DecidableEq, Repr

/-- One execution of a function: the calls it made, in order, and what it
returned; `result = none` is a run-time panic. -/
structure Run (α : Type) where
  calls : List Call
  result : Option α
  deriving DecidableEq, Repr

/-- The loop `for i := 0; i < n; i++` of `accountsFromSeed`, with `k`
iterations left to run, at index `i`, after the calls `calls`, with
`accounts` appended so far. A failing child derivation returns `nil` and the
error. -/
def childLoop {KP E : Type} (env : Env KP E) (master : KP) :
    Nat → Int → List Call → List KP → Run (List KP × Option E)
  | 0, _, calls, accounts => ⟨calls, some (accounts, none)⟩
  | k + 1, i, calls, accounts =>
    match env.NewChildKeyPair master i with
    | .error err => ⟨calls ++ [.NewChildKeyPair i], some ([], some err)⟩
    | .ok acct => childLoop env master k (i + 1) (calls ++ [.NewChildKeyPair i]) (accounts ++ [acct])

/-- The function `accountsFromSeed`: slice the seed to `ed25519.SeedSize`
bytes, derive the master key pair, then the children `0, 1, ..., n-1`. The
loop runs `n` times for `n > 0` and not at all otherwise. -/
def accountsFromSeed {KP E : Type} (env : Env KP E) (seed : ByteSlice) (n : Int) :
    Run (List KP × Option E) :=
  match seed.sliceTo SeedSize with
  | none => ⟨[], none⟩
  | some s =>
    match env.NewMasterKeyPair s.elems with
    | .error err => ⟨[.NewMasterKeyPair s.elems], some ([], some err)⟩
    | .ok masterKeyPair => childLoop env masterKeyPair n.toNat 0 [.NewMasterKeyPair s.elems] []

/-- The function `walletFromMnemonicAndAccounts`; `now` is what
`common.NowTimeString()` returns in this call. -/
def walletFromMnemonicAndAccounts {KP E : Type} (now : String) (m : String) (kp : List KP) :
    Run (Option (Wallet KP) × Option (Error E)) :=
  ⟨[.NowTimeString],
    some (some { Meta := { DisplayName := "Main Wallet", Created := now, GenesisID := "" },
                 Secrets := { Mnemonic := m, Accounts := kp } }, none)⟩

/-- The function `NewMultiWalletFromMnemonic`; `now` is the clock reading of
this call. -/
def NewMultiWalletFromMnemonic {KP E : Type} (env : Env KP E) (now : String) (m : String)
    (n : Int) : Run (Option (Wallet KP) × Option (Error E)) :=
  if n < 0 ∨ n > env.MaxAccountsPerWallet then
    ⟨[], some (none, some (.Errorf "invalid number of accounts"))⟩
  else if !env.IsMnemonicValid m then
    ⟨[.IsMnemonicValid m], some (none, some (.Errorf "invalid mnemonic"))⟩
  else
    let seed := env.NewSeed m ""
    let r := accountsFromSeed env seed n
    let calls := [Call.IsMnemonicValid m, Call.NewSeed m ""] ++ r.calls
    match r.result with
    | none => ⟨calls, none⟩
    | some (_, some err) => ⟨calls, some (none, some (.propagated err))⟩
    | some (accounts, none) =>
      let w := walletFromMnemonicAndAccounts now m accounts
      ⟨calls ++ w.calls, w.result⟩

/-! ## Key derivation as the specification describes it -/

/-- The error kinds the specification names for key derivation. -/
inductive KeyError where
  | InvalidSeedLength
  | AccountLimitExceeded
  deriving DecidableEq, Repr

/-- Modelled from the spec: `NewMasterKeyPair`, whose source is not in
`wallet.go`. "Input constraint: seedPrefix length must equal exactly the
signing algorithm's seed width; fails with `InvalidSeedLength` otherwise";
the key pair is a function `keygen` of the seed bytes alone. -/
def specNewMasterKeyPair {KP : Type} (keygen : List Byte → KP) (seedBytes : List Byte) :
    Except KeyError KP :=
  if seedBytes.length = SeedSize then .ok (keygen seedBytes) else .error .InvalidSeedLength

/-- Modelled from the spec: `NewChildKeyPair`, whose source is not in
`wallet.go`. "Index constraints: `0 ≤ index < MaxAccountsPerWallet`; fails
with `AccountLimitExceeded` outside that range"; inside the range the child
is a function `mix` of the master key pair and the index. -/
def specNewChildKeyPair {KP : Type} (maxAccounts : Int) (mix : KP → Int → KP) (master : KP)
    (index : Int) : Except KeyError KP :=
  if 0 ≤ index ∧ index < maxAccounts then .ok (mix master index)
  else .error .AccountLimitExceeded

/-- The environment in which key derivation is the one of the specification,
for a limit `maxAccounts`, a mnemonic validator, a seed function and the two
functions the specification leaves open. -/
def specEnv {KP : Type} (maxAccounts : Int) (valid : String → Bool)
    (newSeed : String → String → ByteSlice) (keygen : List Byte → KP) (mix : KP → Int → KP) :
    Env KP KeyError where
  MaxAccountsPerWallet := maxAccounts
  IsMnemonicValid := valid
  NewSeed := newSeed
  NewMasterKeyPair := specNewMasterKeyPair keygen
  NewChildKeyPair := specNewChildKeyPair maxAccounts mix

/-- A small concrete environment for evaluating the wallet code: at most two
accounts, one accepted mnemonic, a constant 64-byte seed, the seed bytes as
master key and the index appended to the master key as child key. -/
def demoEnv : Env (List Byte) KeyError :=
  specEnv 2 (fun m => m == "abandon about")
    (fun _ _ => ⟨List.replicate 64 7, []⟩)
    (fun seedBytes => seedBytes)
    (fun master index => master ++ [Fin.ofNat index.toNat])

/-- The environment `demoEnv` with a child derivation that has no index check:
every index derives, the child key being the index appended to the master
key. -/
def uncheckedEnv : Env (List Byte) KeyError :=
  { demoEnv with
    NewChildKeyPair := fun master index => .ok (master ++ [Fin.ofNat index.toNat]) }

/-! ## Lemmas on `encoding/hex` -/

set_option maxRecDepth 100000

theorem hexDigit_high (v : Byte) :
    reverseHexTable (hextable.getD (v.val >>> 4) 0) = v.val >>> 4 ∧ v.val >>> 4 ≤ 15 := by
  revert v; decide

theorem hexDigit_low (v : Byte) :
    reverseHexTable (hextable.getD (v.val &&& 0x0f) 0) = v.val &&& 0x0f ∧ v.val &&& 0x0f ≤ 15 := by
  revert v; decide

theorem nibbles_join (v : Byte) :
    (Fin.ofNat ((((v.val >>> 4) <<< 4) % 256) ||| (v.val &&& 0x0f)) : Byte) = v := by
  revert v; decide

theorem hextable_lower (d : Fin 16) : IsLowerHexChar (hextable.getD d.val 0) := by
  revert d; decide

theorem reverseHexTable_le_iff (c : Byte) : reverseHexTable c ≤ 15 ↔ IsHexChar c := by
  revert c; decide

theorem hextable_reverse (c : Byte) (h : IsHexChar c) :
    hextable.getD (reverseHexTable c) 0 = toLowerByte c := by
  revert c; decide

theorem nibbles_split (a b : Fin 16) :
    ((Fin.ofNat (((a.val <<< 4) % 256) ||| b.val) : Byte).val >>> 4 = a.val)
      ∧ ((Fin.ofNat (((a.val <<< 4) % 256) ||| b.val) : Byte).val &&& 0x0f = b.val) := by
  revert a b; decide

theorem Decode_encode (b dst : List Byte) : Decode dst (EncodeToString b) = (dst ++ b, none) := by
  induction b generalizing dst with
  | nil => simp [EncodeToString, Decode]
  | cons v b ih =>
    have h1 := hexDigit_high v
    have h2 := hexDigit_low v
    have h3 := nibbles_join v
    simp only [EncodeToString, Decode, h1.1, h2.1]
    rw [if_neg (by omega), if_neg (by omega), h3, ih]
    simp

theorem DecodeString_EncodeToString (b : List Byte) :
    DecodeString (EncodeToString b) = (b, none) := by
  simpa [DecodeString] using Decode_encode b []

theorem EncodeToString_length (b : List Byte) : (EncodeToString b).length = 2 * b.length := by
  induction b with
  | nil => rfl
  | cons v b ih => simp only [EncodeToString, List.length_cons, ih]; omega

theorem EncodeToString_lower (b : List Byte) : ∀ ch ∈ EncodeToString b, IsLowerHexChar ch := by
  induction b with
  | nil => simp [EncodeToString]
  | cons v b ih =>
    have h1 := hexDigit_high v
    have h2 := hexDigit_low v
    intro ch hch
    simp only [EncodeToString, List.mem_cons] at hch
    rcases hch with rfl | rfl | hch
    · exact hextable_lower ⟨v.val >>> 4, by omega⟩
    · exact hextable_lower ⟨v.val &&& 0x0f, by omega⟩
    · exact ih ch hch

theorem lower_isHex (ch : Byte) (h : IsLowerHexChar ch) : IsHexChar ch := by
  unfold IsLowerHexChar at h; unfold IsHexChar
  rcases h with h | h
  · exact Or.inl h
  · exact Or.inr (Or.inl h)

/-- The error of `hex.Decode` is `nil` exactly on sources of even length made
of hex digits only. -/
theorem Decode_ok_iff (src dst : List Byte) :
    (Decode dst src).2 = none ↔ (src.length % 2 = 0 ∧ ∀ ch ∈ src, IsHexChar ch) := by
  induction dst, src using Decode.induct with
  | case1 dst p q src a ha =>
    have hp := reverseHexTable_le_iff p
    simp only [Decode, a] at ha ⊢
    rw [if_pos ha]
    simp only [List.mem_cons, forall_eq_or_imp]
    constructor
    · intro h; cases h
    · rintro ⟨_, h, _⟩; exact absurd (hp.2 h) (by omega)
  | case2 dst p q src a b ha hb =>
    have hq := reverseHexTable_le_iff q
    simp only [Decode, a, b] at ha hb ⊢
    rw [if_neg ha, if_pos hb]
    simp only [List.mem_cons, forall_eq_or_imp]
    constructor
    · intro h; cases h
    · rintro ⟨_, _, h, _⟩; exact absurd (hq.2 h) (by omega)
  | case3 dst p q src a b ha hb ih =>
    have hp := reverseHexTable_le_iff p
    have hq := reverseHexTable_le_iff q
    simp only [Decode, a, b] at ha hb ih ⊢
    rw [if_neg ha, if_neg hb, ih]
    simp only [List.mem_cons, forall_eq_or_imp, List.length_cons]
    constructor
    · rintro ⟨h1, h2⟩; exact ⟨by omega, hp.1 (by omega), hq.1 (by omega), h2⟩
    · rintro ⟨h1, _, _, h2⟩; exact ⟨by omega, h2⟩
  | case4 dst p hp =>
    simp only [Decode]
    rw [if_pos hp]
    simp
  | case5 dst p hp =>
    simp only [Decode]
    rw [if_neg hp]
    simp
  | case6 dst => simp [Decode]

/-- Decoding an even-length string of hex digits and encoding the bytes again
gives the string in lowercase. -/
theorem encode_Decode (src dst : List Byte) (hlen : src.length % 2 = 0)
    (hhex : ∀ ch ∈ src, IsHexChar ch) :
    ∃ bytes, Decode dst src = (dst ++ bytes, none) ∧ EncodeToString bytes = toLower src := by
  induction dst, src using Decode.induct with
  | case1 dst p q src a ha =>
    have hp := reverseHexTable_le_iff p
    simp only [a] at ha
    exact absurd (hp.2 (hhex p (by simp))) (by omega)
  | case2 dst p q src a b ha hb =>
    have hq := reverseHexTable_le_iff q
    simp only [b] at hb
    exact absurd (hq.2 (hhex q (by simp))) (by omega)
  | case3 dst p q src a b ha hb ih =>
    have hp : IsHexChar p := hhex p (by simp)
    have hq : IsHexChar q := hhex q (by simp)
    simp only [a, b] at ha hb ih
    obtain ⟨bytes, h1, h2⟩ := ih (by simp only [List.length_cons] at hlen; omega)
      (fun ch hch => hhex ch (by simp [hch]))
    refine ⟨Fin.ofNat (((reverseHexTable p <<< 4) % 256) ||| reverseHexTable q) :: bytes, ?_, ?_⟩
    · simp only [Decode]
      rw [if_neg ha, if_neg hb, h1]
      simp
    · have hs := nibbles_split ⟨reverseHexTable p, by omega⟩ ⟨reverseHexTable q, by omega⟩
      simp only at hs
      simp only [EncodeToString, hs.1, hs.2, h2, toLower, List.map_cons,
        hextable_reverse p hp, hextable_reverse q hq]
  | case4 dst p hp => simp at hlen
  | case5 dst p hp => simp at hlen
  | case6 dst => exact ⟨[], by simp [Decode], rfl⟩

theorem plainJSON_quotesHex : plainJSON.QuotesHex := by
  intro s hs
  constructor
  · have hall : s.all (fun ch => decide (32 ≤ ch.val ∧ ch.val < 127 ∧ ch.val ≠ 34 ∧ ch.val ≠ 92
        ∧ ch.val ≠ 60 ∧ ch.val ≠ 62 ∧ ch.val ≠ 38)) = true := by
      rw [List.all_eq_true]
      intro ch hch
      have := hs ch hch
      unfold IsHexChar at this
      simp only [decide_eq_true_eq]
      omega
    simp only [plainJSON, hall, if_true]
  · simp only [plainJSON, quote, List.getLast?_append, List.getLast?_singleton,
      List.dropLast_concat, List.all_eq_true, decide_eq_true_eq]
    rw [if_pos]
    refine ⟨by decide, rfl, fun ch hch => ?_⟩
    have := hs ch hch
    unfold IsHexChar at this
    omega

/-! ## The hex codec -/

/-- C6. Round trip of the hex codec: for every byte sequence `b` (the empty one
included) and every prior receiver value `c`, `MarshalJSON` on `b` returns
some text without error and `UnmarshalJSON` on that text returns a `nil` error
and leaves the receiver equal to `b`. The JSON library is any one that puts a
string of hex digits between quotes and reads it back. -/
theorem MarshalJSON_UnmarshalJSON_roundtrip {JE : Type} (j : JSON JE) (hj : j.QuotesHex)
    (b c : List Byte) :
    ∃ data, MarshalJSON j b = .ok data ∧ UnmarshalJSON j c data = (b, none) := by
  have hhex : ∀ ch ∈ EncodeToString b, IsHexChar ch :=
    fun ch hch => lower_isHex ch (EncodeToString_lower b ch hch)
  obtain ⟨hm, hu⟩ := hj (EncodeToString b) hhex
  refine ⟨quote (EncodeToString b), hm, ?_⟩
  simp [UnmarshalJSON, hu, DecodeString_EncodeToString]

theorem MarshalJSON_UnmarshalJSON_roundtrip_witness :
    plainJSON.QuotesHex
      ∧ (∃ data, MarshalJSON plainJSON [0, 171, 255] = .ok data
          ∧ UnmarshalJSON plainJSON [9] data = ([0, 171, 255], none))
      ∧ (∃ data, MarshalJSON plainJSON [] = .ok data
          ∧ UnmarshalJSON plainJSON [9] data = ([], none)) :=
  ⟨plainJSON_quotesHex,
    MarshalJSON_UnmarshalJSON_roundtrip plainJSON plainJSON_quotesHex [0, 171, 255] [9],
    MarshalJSON_UnmarshalJSON_roundtrip plainJSON plainJSON_quotesHex [] [9]⟩

/-- C7. For every input `data` that `json.Unmarshal` reads as the string `s`
(a JSON string literal whose content is `s`), `UnmarshalJSON` returns a `nil`
error if and only if `s` has even length and consists of the characters
`0`-`9`, `a`-`f`, `A`-`F`; an odd-length `s` and an `s` with a character that
is no hex digit are rejected with an error of `encoding/hex`. -/
theorem UnmarshalJSON_ok_iff {JE : Type} (j : JSON JE) (c data s : List Byte)
    (h : j.UnmarshalString data = .ok s) :
    ((UnmarshalJSON j c data).2 = none ↔ (s.length % 2 = 0 ∧ ∀ ch ∈ s, IsHexChar ch))
      ∧ (s.length % 2 = 1 → ∃ e, (UnmarshalJSON j c data).2 = some (.hex e))
      ∧ ((∃ ch ∈ s, ¬ IsHexChar ch) → ∃ e, (UnmarshalJSON j c data).2 = some (.hex e)) := by
  have key := Decode_ok_iff s []
  have hval : (UnmarshalJSON j c data).2 = (Decode [] s).2.map CodecError.hex := by
    simp [UnmarshalJSON, h, DecodeString]
  have hrej : (Decode [] s).2 ≠ none → ∃ e, (UnmarshalJSON j c data).2 = some (.hex e) := by
    intro hne
    rw [hval]
    cases hd : (Decode [] s).2 with
    | none => exact absurd hd hne
    | some e => exact ⟨e, rfl⟩
  refine ⟨?_, ?_, ?_⟩
  · rw [hval, ← key]
    cases (Decode [] s).2 <;> simp
  · intro hodd
    apply hrej
    intro hnone
    have := (key.1 hnone).1
    omega
  · rintro ⟨ch, hch, hbad⟩
    apply hrej
    intro hnone
    exact hbad ((key.1 hnone).2 ch hch)

theorem UnmarshalJSON_ok_iff_witness :
    plainJSON.UnmarshalString (quote [48, 97, 70, 51]) = .ok [48, 97, 70, 51]
      ∧ (UnmarshalJSON plainJSON [] (quote [48, 97, 70, 51])).2 = none
      ∧ (∃ e, (UnmarshalJSON plainJSON [] (quote [48, 97, 70])).2 = some (.hex e))
      ∧ (∃ e, (UnmarshalJSON plainJSON [] (quote [48, 103])).2 = some (.hex e)) :=
  ⟨by decide,
    (UnmarshalJSON_ok_iff plainJSON [] (quote [48, 97, 70, 51]) [48, 97, 70, 51]
      (by decide)).1.2 (by decide),
    (UnmarshalJSON_ok_iff plainJSON [] (quote [48, 97, 70]) [48, 97, 70]
      (by decide)).2.1 (by decide),
    (UnmarshalJSON_ok_iff plainJSON [] (quote [48, 103]) [48, 103]
      (by decide)).2.2 ⟨103, by decide, by decide⟩⟩

/-- C8. Case normalisation of the hex codec: for every even-length string `s`
of the characters `0`-`9`, `a`-`f`, `A`-`F`, `UnmarshalJSON` on the JSON
string `s` succeeds with some bytes, `MarshalJSON` on those bytes yields the
JSON string of `s` in lowercase, and the lowercase form of `s` decodes to the
same bytes; and on every byte sequence `b` the output of `MarshalJSON` is, between
its quotes, `2 * len(b)` characters that are all among `0`-`9`, `a`-`f`. -/
theorem hexCodec_normalises_case {JE : Type} (j : JSON JE) (hj : j.QuotesHex)
    (s c : List Byte) (hlen : s.length % 2 = 0) (hhex : ∀ ch ∈ s, IsHexChar ch) :
    (∃ bytes, UnmarshalJSON j c (quote s) = (bytes, none)
        ∧ MarshalJSON j bytes = .ok (quote (toLower s))
        ∧ UnmarshalJSON j c (quote (toLower s)) = (bytes, none))
      ∧ ∀ b : List Byte, ∃ body, MarshalJSON j b = .ok (quote body)
          ∧ body.length = 2 * b.length ∧ ∀ ch ∈ body, IsLowerHexChar ch := by
  have hout : ∀ b : List Byte, ∀ ch ∈ EncodeToString b, IsHexChar ch :=
    fun b ch hch => lower_isHex ch (EncodeToString_lower b ch hch)
  constructor
  · obtain ⟨bytes, hdec, henc⟩ := encode_Decode s [] hlen hhex
    refine ⟨bytes, ?_, ?_, ?_⟩
    · simp [UnmarshalJSON, (hj s hhex).2, DecodeString, hdec]
    · have := (hj (EncodeToString bytes) (hout bytes)).1
      rw [henc] at this
      simpa [MarshalJSON, henc] using this
    · have hu := (hj (EncodeToString bytes) (hout bytes)).2
      rw [henc] at hu
      have hd := DecodeString_EncodeToString bytes
      rw [henc] at hd
      simp [UnmarshalJSON, hu, hd]
  · intro b
    exact ⟨EncodeToString b, (hj (EncodeToString b) (hout b)).1, EncodeToString_length b,
      EncodeToString_lower b⟩

theorem hexCodec_normalises_case_witness :
    (∃ bytes, UnmarshalJSON plainJSON [] (quote [48, 65, 102, 70]) = (bytes, none)
        ∧ MarshalJSON plainJSON bytes = .ok (quote [48, 97, 102, 102])
        ∧ UnmarshalJSON plainJSON [] (quote [48, 97, 102, 102]) = (bytes, none)) :=
  (hexCodec_normalises_case plainJSON plainJSON_quotesHex [48, 65, 102, 70] []
    (by decide) (by decide)).1

/-! ## Lemmas on account derivation -/

theorem sliceTo_none (seed : ByteSlice) (h : seed.cap < SeedSize) :
    seed.sliceTo SeedSize = none := by
  unfold ByteSlice.sliceTo
  rw [if_neg (by omega)]

theorem sliceTo_some (seed : ByteSlice) (h : SeedSize ≤ seed.cap) :
    seed.sliceTo SeedSize
      = some ⟨(seed.elems ++ seed.spare).take SeedSize, (seed.elems ++ seed.spare).drop SeedSize⟩ := by
  unfold ByteSlice.sliceTo
  rw [if_pos h]

theorem take_seed (seed : ByteSlice) (h : SeedSize ≤ seed.elems.length) :
    (seed.elems ++ seed.spare).take SeedSize = seed.elems.take SeedSize := by
  rw [List.take_append_of_le_length h]

theorem cap_of_len (seed : ByteSlice) (h : SeedSize ≤ seed.elems.length) : SeedSize ≤ seed.cap := by
  unfold ByteSlice.cap; omega

theorem range_calls (i : Int) (k : Nat) :
    (List.range (k + 1)).map (fun j : Nat => Call.NewChildKeyPair (i + j))
      = Call.NewChildKeyPair i
        :: (List.range k).map (fun j : Nat => Call.NewChildKeyPair (i + 1 + j)) := by
  rw [List.range_succ_eq_map, List.map_cons, List.map_map]
  simp only [Nat.cast_zero, add_zero, List.cons.injEq, true_and]
  apply List.map_congr_left
  intro j _
  simp only [Function.comp, Nat.cast_succ]
  congr 1
  ring

/-- When the children at `i, i+1, ..., i+k-1` all derive, the loop appends
them in order and records one call for each. -/
theorem childLoop_ok {KP E : Type} (env : Env KP E) (master : KP) (k : Nat) :
    ∀ (i : Int) (calls : List Call) (accounts kids : List KP), kids.length = k →
      (∀ (j : Nat) (hj : j < kids.length), env.NewChildKeyPair master (i + j) = .ok (kids.get ⟨j, hj⟩)) →
      childLoop env master k i calls accounts
        = ⟨calls ++ (List.range k).map (fun j : Nat => Call.NewChildKeyPair (i + j)),
            some (accounts ++ kids, none)⟩ := by
  induction k with
  | zero =>
    intro i calls accounts kids hlen _
    have : kids = [] := List.length_eq_zero.mp hlen
    subst this
    simp [childLoop]
  | succ k ih =>
    intro i calls accounts kids hlen hkids
    cases kids with
    | nil => simp at hlen
    | cons kid kids =>
      have h0 := hkids 0 (by simp)
      simp only [Nat.cast_zero, add_zero, List.get_eq_getElem, List.getElem_cons_zero] at h0
      have hrest : ∀ (j : Nat) (hj : j < kids.length),
          env.NewChildKeyPair master (i + 1 + j) = .ok (kids.get ⟨j, hj⟩) := by
        intro j hj
        have := hkids (j + 1) (by simp; omega)
        have e : i + 1 + (j : Int) = i + ((j + 1 : Nat) : Int) := by push_cast; ring
        rw [e, this]
        simp
      rw [childLoop, h0]
      simp only
      rw [ih (i + 1) _ _ kids (by simpa using hlen) hrest, range_calls]
      simp

/-- A run of the loop that returns no error derived every child. -/
theorem childLoop_ok_inv {KP E : Type} (env : Env KP E) (master : KP) (k : Nat) :
    ∀ (i : Int) (calls : List Call) (accounts accts : List KP),
      (childLoop env master k i calls accounts).result = some (accts, none) →
      ∃ kids : List KP, kids.length = k ∧ accts = accounts ++ kids
        ∧ ∀ (j : Nat) (hj : j < kids.length),
            env.NewChildKeyPair master (i + j) = .ok (kids.get ⟨j, hj⟩) := by
  induction k with
  | zero =>
    intro i calls accounts accts h
    simp only [childLoop, Option.some.injEq, Prod.mk.injEq, and_true] at h
    exact ⟨[], rfl, by simp [h], fun j hj => absurd hj (by simp)⟩
  | succ k ih =>
    intro i calls accounts accts h
    rw [childLoop] at h
    cases hc : env.NewChildKeyPair master i with
    | error err => rw [hc] at h; simp at h
    | ok acct =>
      rw [hc] at h
      simp only at h
      obtain ⟨kids, hlen, hacc, hkids⟩ := ih (i + 1) _ _ accts h
      refine ⟨acct :: kids, by simp [hlen], by simp [hacc], ?_⟩
      intro j hj
      cases j with
      | zero => simpa using hc
      | succ j =>
        have := hkids j (by simpa using hj)
        have e : i + ((j + 1 : Nat) : Int) = i + 1 + (j : Int) := by push_cast; ring
        rw [e, this]
        simp

/-- When child `i + j0` is the first one whose derivation fails, the loop
returns `nil` and that error. -/
theorem childLoop_fail {KP E : Type} (env : Env KP E) (master : KP) (k : Nat) :
    ∀ (i : Int) (calls : List Call) (accounts : List KP) (j0 : Nat) (e : E), j0 < k →
      (∀ j : Nat, j < j0 → ∃ kp, env.NewChildKeyPair master (i + j) = .ok kp) →
      env.NewChildKeyPair master (i + j0) = .error e →
      (childLoop env master k i calls accounts).result = some ([], some e) := by
  induction k with
  | zero => intro i calls accounts j0 e hj0; omega
  | succ k ih =>
    intro i calls accounts j0 e hj0 hbefore hfail
    rw [childLoop]
    cases j0 with
    | zero =>
      simp only [Nat.cast_zero, add_zero] at hfail
      rw [hfail]
    | succ j0 =>
      obtain ⟨kp, hkp⟩ := hbefore 0 (by omega)
      simp only [Nat.cast_zero, add_zero] at hkp
      rw [hkp]
      simp only
      apply ih (i + 1) _ _ j0 e (by omega)
      · intro j hj
        obtain ⟨kp2, hkp2⟩ := hbefore (j + 1) (by omega)
        refine ⟨kp2, ?_⟩
        rw [← hkp2]
        congr 1
        push_cast
        ring
      · rw [← hfail]
        congr 1
        push_cast
        ring

/-- The loop always returns, with either no error or no accounts. -/
theorem childLoop_returns {KP E : Type} (env : Env KP E) (master : KP) (k : Nat) :
    ∀ (i : Int) (calls : List Call) (accounts : List KP),
      (∃ accts, (childLoop env master k i calls accounts).result = some (accts, none))
        ∨ (∃ e, (childLoop env master k i calls accounts).result = some ([], some e)) := by
  induction k with
  | zero => intro i calls accounts; exact Or.inl ⟨accounts, rfl⟩
  | succ k ih =>
    intro i calls accounts
    rw [childLoop]
    cases hc : env.NewChildKeyPair master i with
    | error err => exact Or.inr ⟨err, rfl⟩
    | ok acct => exact ih (i + 1) _ _

/-- An error returned by the loop comes with no accounts and is the error of
one of its child derivations. -/
theorem childLoop_error_inv {KP E : Type} (env : Env KP E) (master : KP) (k : Nat) :
    ∀ (i : Int) (calls : List Call) (accounts accts : List KP) (e : E),
      (childLoop env master k i calls accounts).result = some (accts, some e) →
      accts = [] ∧ ∃ j : Nat, j < k ∧ env.NewChildKeyPair master (i + j) = .error e := by
  induction k with
  | zero =>
    intro i calls accounts accts e h
    simp [childLoop] at h
  | succ k ih =>
    intro i calls accounts accts e h
    rw [childLoop] at h
    cases hc : env.NewChildKeyPair master i with
    | error err =>
      rw [hc] at h
      simp only [Option.some.injEq, Prod.mk.injEq] at h
      refine ⟨h.1.symm, 0, by omega, ?_⟩
      rw [← h.2]
      simpa using hc
    | ok acct =>
      rw [hc] at h
      simp only at h
      obtain ⟨hnil, j, hj, hjerr⟩ := ih (i + 1) _ _ accts e h
      refine ⟨hnil, j + 1, by omega, ?_⟩
      have e2 : i + ((j + 1 : Nat) : Int) = i + 1 + (j : Int) := by push_cast; ring
      rw [e2, hjerr]

/-- With the slice in bounds, `accountsFromSeed` is the master derivation on
the first `SeedSize` bytes followed by the loop. -/
theorem accountsFromSeed_inBounds {KP E : Type} (env : Env KP E) (seed : ByteSlice) (n : Int)
    (h : SeedSize ≤ seed.cap) :
    accountsFromSeed env seed n
      = match env.NewMasterKeyPair ((seed.elems ++ seed.spare).take SeedSize) with
        | .error err =>
          ⟨[.NewMasterKeyPair ((seed.elems ++ seed.spare).take SeedSize)], some ([], some err)⟩
        | .ok masterKeyPair =>
          childLoop env masterKeyPair n.toNat 0
            [.NewMasterKeyPair ((seed.elems ++ seed.spare).take SeedSize)] [] := by
  unfold accountsFromSeed
  rw [sliceTo_some seed h]

/-- With the slice in bounds, `accountsFromSeed` returns: accounts and no
error, or no accounts and an error. -/
theorem accountsFromSeed_returns {KP E : Type} (env : Env KP E) (seed : ByteSlice) (n : Int)
    (h : SeedSize ≤ seed.cap) :
    (∃ accts, (accountsFromSeed env seed n).result = some (accts, none))
      ∨ (∃ e, (accountsFromSeed env seed n).result = some ([], some e)) := by
  rw [accountsFromSeed_inBounds env seed n h]
  cases env.NewMasterKeyPair ((seed.elems ++ seed.spare).take SeedSize) with
  | error err => exact Or.inr ⟨err, rfl⟩
  | ok master => exact childLoop_returns env master n.toNat 0 _ _

theorem seed64_cap {KP E : Type} (env : Env KP E) (m : String)
    (hseed : (env.NewSeed m "").elems.length = 64) : SeedSize ≤ (env.NewSeed m "").cap := by
  unfold ByteSlice.cap SeedSize; omega

/-- Past the two guards, `NewMultiWalletFromMnemonic` is decided by what
`accountsFromSeed` returns on the seed of the mnemonic. -/
theorem NewMultiWalletFromMnemonic_valid {KP E : Type} (env : Env KP E) (now m : String)
    (n : Int) (hn : 0 ≤ n ∧ n ≤ env.MaxAccountsPerWallet) (hv : env.IsMnemonicValid m = true) :
    NewMultiWalletFromMnemonic env now m n
      = match (accountsFromSeed env (env.NewSeed m "") n).result with
        | none =>
          ⟨[Call.IsMnemonicValid m, Call.NewSeed m ""]
              ++ (accountsFromSeed env (env.NewSeed m "") n).calls, none⟩
        | some (_, some err) =>
          ⟨[Call.IsMnemonicValid m, Call.NewSeed m ""]
              ++ (accountsFromSeed env (env.NewSeed m "") n).calls,
            some (none, some (.propagated err))⟩
        | some (accounts, none) =>
          ⟨[Call.IsMnemonicValid m, Call.NewSeed m ""]
              ++ (accountsFromSeed env (env.NewSeed m "") n).calls ++ [Call.NowTimeString],
            some (some { Meta := { DisplayName := "Main Wallet", Created := now, GenesisID := "" },
                         Secrets := { Mnemonic := m, Accounts := accounts } }, none)⟩ := by
  unfold NewMultiWalletFromMnemonic
  rw [if_neg (by omega)]
  simp only [hv, Bool.not_true, Bool.false_eq_true, if_false, walletFromMnemonicAndAccounts]

theorem NewMultiWalletFromMnemonic_invalid {KP E : Type} (env : Env KP E) (now m : String)
    (n : Int) (hn : 0 ≤ n ∧ n ≤ env.MaxAccountsPerWallet) (hv : env.IsMnemonicValid m = false) :
    NewMultiWalletFromMnemonic env now m n
      = ⟨[.IsMnemonicValid m], some (none, some (.Errorf "invalid mnemonic"))⟩ := by
  unfold NewMultiWalletFromMnemonic
  rw [if_neg (by omega)]
  simp only [hv, Bool.not_false, if_true]

theorem NewMultiWalletFromMnemonic_outOfRange {KP E : Type} (env : Env KP E) (now m : String)
    (n : Int) (hn : n < 0 ∨ n > env.MaxAccountsPerWallet) :
    NewMultiWalletFromMnemonic env now m n
      = ⟨[], some (none, some (.Errorf "invalid number of accounts"))⟩ := by
  unfold NewMultiWalletFromMnemonic
  rw [if_pos hn]

/-! ## Wallet construction -/

/-- C1. For every mnemonic `m`, valid or not, and every `n` with `n < 0` or
`n > MaxAccountsPerWallet`, `NewMultiWalletFromMnemonic(m, n)` returns a `nil`
wallet with the error "invalid number of accounts" and has called neither the
mnemonic validator nor any seed or key derivation; for every `n` with
`0 ≤ n ≤ MaxAccountsPerWallet` it does not return that error: an error it
returns then is "invalid mnemonic" or one handed up from key derivation. -/
theorem NewMultiWalletFromMnemonic_count_guard {KP E : Type} (env : Env KP E)
    (now m : String) (n : Int) :
    ((n < 0 ∨ n > env.MaxAccountsPerWallet) →
        NewMultiWalletFromMnemonic env now m n
          = ⟨[], some (none, some (.Errorf "invalid number of accounts"))⟩)
      ∧ ((0 ≤ n ∧ n ≤ env.MaxAccountsPerWallet) →
          (∀ w, (NewMultiWalletFromMnemonic env now m n).result
              ≠ some (w, some (.Errorf "invalid number of accounts")))
            ∧ ∀ w e, (NewMultiWalletFromMnemonic env now m n).result = some (w, some e) →
                e = .Errorf "invalid mnemonic" ∨ ∃ d, e = .propagated d) := by
  refine ⟨NewMultiWalletFromMnemonic_outOfRange env now m n, ?_⟩
  intro hn
  cases hv : env.IsMnemonicValid m with
  | false =>
    rw [NewMultiWalletFromMnemonic_invalid env now m n hn hv]
    constructor
    · intro w
      simp only [ne_eq, Option.some.injEq, Prod.mk.injEq, Error.Errorf.injEq, not_and]
      intro _
      decide
    · intro w e h
      simp only [Option.some.injEq, Prod.mk.injEq] at h
      exact Or.inl h.2.symm
  | true =>
    rw [NewMultiWalletFromMnemonic_valid env now m n hn hv]
    constructor
    · intro w
      split <;> simp
    · intro w e
      split
      · simp
      · intro h
        simp only [Option.some.injEq, Prod.mk.injEq] at h
        exact Or.inr ⟨_, h.2.symm⟩
      · simp

theorem NewMultiWalletFromMnemonic_count_guard_witness :
    NewMultiWalletFromMnemonic demoEnv "t0" "abandon about" 3
        = ⟨[], some (none, some (.Errorf "invalid number of accounts"))⟩
      ∧ NewMultiWalletFromMnemonic demoEnv "t0" "not a mnemonic" (-1)
        = ⟨[], some (none, some (.Errorf "invalid number of accounts"))⟩
      ∧ ∀ w, (NewMultiWalletFromMnemonic demoEnv "t0" "abandon about" 2).result
          ≠ some (w, some (.Errorf "invalid number of accounts")) :=
  ⟨(NewMultiWalletFromMnemonic_count_guard demoEnv "t0" "abandon about" 3).1 (by decide),
    (NewMultiWalletFromMnemonic_count_guard demoEnv "t0" "not a mnemonic" (-1)).1 (by decide),
    ((NewMultiWalletFromMnemonic_count_guard demoEnv "t0" "abandon about" 2).2 (by decide)).1⟩

/-- C2. For every `n` with `0 ≤ n ≤ MaxAccountsPerWallet` and every string `m`,
`NewMultiWalletFromMnemonic(m, n)` returns a `nil` wallet with the error
"invalid mnemonic" if and only if `bip39.IsMnemonicValid` rejects `m`; and when
`m` is rejected the validator is the only function called: no seed is derived,
no key pair is derived, no wallet is stamped. -/
theorem NewMultiWalletFromMnemonic_invalid_mnemonic {KP E : Type} (env : Env KP E)
    (now m : String) (n : Int) (hn : 0 ≤ n ∧ n ≤ env.MaxAccountsPerWallet) :
    ((NewMultiWalletFromMnemonic env now m n).result
          = some (none, some (.Errorf "invalid mnemonic"))
        ↔ env.IsMnemonicValid m = false)
      ∧ (env.IsMnemonicValid m = false →
          (NewMultiWalletFromMnemonic env now m n).calls = [.IsMnemonicValid m]) := by
  cases hv : env.IsMnemonicValid m with
  | false =>
    rw [NewMultiWalletFromMnemonic_invalid env now m n hn hv]
    simp
  | true =>
    rw [NewMultiWalletFromMnemonic_valid env now m n hn hv]
    refine ⟨?_, by simp⟩
    split <;> simp

theorem NewMultiWalletFromMnemonic_invalid_mnemonic_witness :
    ((NewMultiWalletFromMnemonic demoEnv "t0" "not a mnemonic" 1).result
          = some (none, some (.Errorf "invalid mnemonic"))
        ↔ demoEnv.IsMnemonicValid "not a mnemonic" = false)
      ∧ (NewMultiWalletFromMnemonic demoEnv "t0" "not a mnemonic" 1).calls
          = [.IsMnemonicValid "not a mnemonic"] :=
  ⟨(NewMultiWalletFromMnemonic_invalid_mnemonic demoEnv "t0" "not a mnemonic" 1 (by decide)).1,
    (NewMultiWalletFromMnemonic_invalid_mnemonic demoEnv "t0" "not a mnemonic" 1 (by decide)).2
      (by decide)⟩

/-- C3. Determinism: for every mnemonic `m` whose seed is the 64 bytes that
`bip39.NewSeed` produces and every count `n`, two calls of
`NewMultiWalletFromMnemonic(m, n)` at the clock readings `now1` and `now2`
either both return a `nil` wallet with the same error, or both return a wallet
and no error, the two wallets having the same mnemonic and the same accounts
in the same order and differing at most in `Meta.Created`, which is the clock
reading of the respective call. -/
theorem NewMultiWalletFromMnemonic_deterministic {KP E : Type} (env : Env KP E)
    (now1 now2 m : String) (n : Int) (hseed : (env.NewSeed m "").elems.length = 64) :
    (∃ e, (NewMultiWalletFromMnemonic env now1 m n).result = some (none, some e)
        ∧ (NewMultiWalletFromMnemonic env now2 m n).result = some (none, some e))
      ∨ (∃ w1 w2, (NewMultiWalletFromMnemonic env now1 m n).result = some (some w1, none)
          ∧ (NewMultiWalletFromMnemonic env now2 m n).result = some (some w2, none)
          ∧ w1.Mnemonic = w2.Mnemonic
          ∧ w1.Secrets.Accounts = w2.Secrets.Accounts
          ∧ w1.Meta.Created = now1 ∧ w2.Meta.Created = now2
          ∧ w2 = { w1 with Meta := { w1.Meta with Created := now2 } }) := by
  by_cases hn : 0 ≤ n ∧ n ≤ env.MaxAccountsPerWallet
  · cases hv : env.IsMnemonicValid m with
    | false =>
      rw [NewMultiWalletFromMnemonic_invalid env now1 m n hn hv,
        NewMultiWalletFromMnemonic_invalid env now2 m n hn hv]
      exact Or.inl ⟨_, rfl, rfl⟩
    | true =>
      rw [NewMultiWalletFromMnemonic_valid env now1 m n hn hv,
        NewMultiWalletFromMnemonic_valid env now2 m n hn hv]
      rcases accountsFromSeed_returns env (env.NewSeed m "") n (seed64_cap env m hseed) with
        ⟨accts, h⟩ | ⟨e, h⟩
      · rw [h]
        exact Or.inr ⟨_, _, rfl, rfl, rfl, rfl, rfl, rfl, rfl⟩
      · rw [h]
        exact Or.inl ⟨_, rfl, rfl⟩
  · have hn2 : n < 0 ∨ n > env.MaxAccountsPerWallet := by omega
    rw [NewMultiWalletFromMnemonic_outOfRange env now1 m n hn2,
      NewMultiWalletFromMnemonic_outOfRange env now2 m n hn2]
    exact Or.inl ⟨_, rfl, rfl⟩

theorem NewMultiWalletFromMnemonic_deterministic_witness :
    (demoEnv.NewSeed "abandon about" "").elems.length = 64
      ∧ ((∃ e, (NewMultiWalletFromMnemonic demoEnv "t1" "abandon about" 2).result
              = some (none, some e)
            ∧ (NewMultiWalletFromMnemonic demoEnv "t2" "abandon about" 2).result
              = some (none, some e))
        ∨ (∃ w1 w2, (NewMultiWalletFromMnemonic demoEnv "t1" "abandon about" 2).result
              = some (some w1, none)
            ∧ (NewMultiWalletFromMnemonic demoEnv "t2" "abandon about" 2).result
              = some (some w2, none)
            ∧ w1.Mnemonic = w2.Mnemonic
            ∧ w1.Secrets.Accounts = w2.Secrets.Accounts
            ∧ w1.Meta.Created = "t1" ∧ w2.Meta.Created = "t2"
            ∧ w2 = { w1 with Meta := { w1.Meta with Created := "t2" } })) :=
  ⟨by decide,
    NewMultiWalletFromMnemonic_deterministic demoEnv "t1" "t2" "abandon about" 2 (by decide)⟩

/-! ## Account derivation -/

/-- C4. For every seed of at least 32 bytes and every `n ≥ 0` for which
`accountsFromSeed(seed, n)` returns accounts and no error: the master key pair
is `NewMasterKeyPair(seed[0:32])`, derived once; the result has exactly `n`
elements and its element at position `i` is `NewChildKeyPair(i)` of that
master, the calls being the master derivation followed by the children
`0, ..., n-1`; a seed that agrees with this one on its first 32 bytes gives the
same run for every count; and for every `k ≤ n`, `accountsFromSeed(seed, k)`
succeeds with a leading segment of the result. -/
theorem accountsFromSeed_spec {KP E : Type} (env : Env KP E) (seed : ByteSlice) (n : Int)
    (accounts : List KP) (hlen : SeedSize ≤ seed.len) (hn : 0 ≤ n)
    (hok : (accountsFromSeed env seed n).result = some (accounts, none)) :
    (∃ master, env.NewMasterKeyPair (seed.elems.take SeedSize) = .ok master
        ∧ (accounts.length : Int) = n
        ∧ (∀ (i : Nat) (hi : i < accounts.length),
            env.NewChildKeyPair master i = .ok (accounts.get ⟨i, hi⟩))
        ∧ (accountsFromSeed env seed n).calls
            = Call.NewMasterKeyPair (seed.elems.take SeedSize)
              :: (List.range n.toNat).map (fun i : Nat => Call.NewChildKeyPair i))
      ∧ (∀ (seed2 : ByteSlice) (k : Int), SeedSize ≤ seed2.len →
          seed2.elems.take SeedSize = seed.elems.take SeedSize →
          accountsFromSeed env seed2 k = accountsFromSeed env seed k)
      ∧ (∀ k : Int, k ≤ n →
          ∃ accts, (accountsFromSeed env seed k).result = some (accts, none)
            ∧ accts <+: accounts) := by
  have hcap := cap_of_len seed hlen
  have heq : ∀ k : Int, accountsFromSeed env seed k
      = match env.NewMasterKeyPair (seed.elems.take SeedSize) with
        | .error err => ⟨[.NewMasterKeyPair (seed.elems.take SeedSize)], some ([], some err)⟩
        | .ok masterKeyPair =>
          childLoop env masterKeyPair k.toNat 0 [.NewMasterKeyPair (seed.elems.take SeedSize)] [] := by
    intro k
    rw [accountsFromSeed_inBounds env seed k hcap, take_seed seed hlen]
  refine ⟨?_, ?_, ?_⟩
  · rw [heq n] at hok ⊢
    cases hm : env.NewMasterKeyPair (seed.elems.take SeedSize) with
    | error err => rw [hm] at hok; simp at hok
    | ok master =>
      rw [hm] at hok
      simp only at hok ⊢
      obtain ⟨kids, hklen, hacc, hkids⟩ := childLoop_ok_inv env master n.toNat 0 _ _ accounts hok
      simp only [List.nil_append] at hacc
      subst hacc
      refine ⟨master, rfl, ?_, ?_, ?_⟩
      · rw [hklen]; omega
      · intro i hi
        simpa using hkids i hi
      · rw [childLoop_ok env master n.toNat 0 _ [] accounts hklen hkids]
        simp
  · intro seed2 k hlen2 htake
    rw [heq k, accountsFromSeed_inBounds env seed2 k (cap_of_len seed2 hlen2),
      take_seed seed2 hlen2, htake]
  · intro k hk
    rw [heq n] at hok
    rw [heq k]
    cases hm : env.NewMasterKeyPair (seed.elems.take SeedSize) with
    | error err => rw [hm] at hok; simp at hok
    | ok master =>
      rw [hm] at hok
      simp only at hok ⊢
      obtain ⟨kids, hklen, hacc, hkids⟩ := childLoop_ok_inv env master n.toNat 0 _ _ accounts hok
      simp only [List.nil_append] at hacc
      subst hacc
      have hle : k.toNat ≤ accounts.length := by rw [hklen]; omega
      refine ⟨accounts.take k.toNat, ?_, ⟨accounts.drop k.toNat, List.take_append_drop _ _⟩⟩
      rw [childLoop_ok env master k.toNat 0 _ [] (accounts.take k.toNat)
        (by rw [List.length_take]; omega) ?_]
      · simp
      · intro j hj
        have hj2 : j < accounts.length := by
          rw [List.length_take] at hj; omega
        rw [hkids j hj2]
        simp [List.getElem_take]

theorem accountsFromSeed_spec_witness :
    (accountsFromSeed demoEnv ⟨List.replicate 64 7, []⟩ 2).result
        = some ([List.replicate 32 7 ++ [0], List.replicate 32 7 ++ [1]], none)
      ∧ (accountsFromSeed demoEnv ⟨List.replicate 64 7, []⟩ 2).calls
        = [.NewMasterKeyPair (List.replicate 32 7), .NewChildKeyPair 0, .NewChildKeyPair 1]
      ∧ accountsFromSeed demoEnv ⟨List.replicate 32 7 ++ List.replicate 8 9, []⟩ 2
        = accountsFromSeed demoEnv ⟨List.replicate 64 7, []⟩ 2
      ∧ ∃ accts, (accountsFromSeed demoEnv ⟨List.replicate 64 7, []⟩ 1).result
          = some (accts, none)
        ∧ accts <+: [List.replicate 32 7 ++ [0], List.replicate 32 7 ++ [1]] :=
  have h := accountsFromSeed_spec demoEnv ⟨List.replicate 64 7, []⟩ 2
    [List.replicate 32 7 ++ [0], List.replicate 32 7 ++ [1]] (by decide) (by decide) (by decide)
  ⟨by decide, by decide,
    h.2.1 ⟨List.replicate 32 7 ++ List.replicate 8 9, []⟩ 2 (by decide) (by decide),
    h.2.2 1 (by decide)⟩

/-- C5, as the claim states it, fails at the count boundary: `accountsFromSeed`
has no limit check of its own. On a 64-byte seed, with a limit of two accounts
and a child derivation that accepts every index,
`accountsFromSeed(seed, MaxAccountsPerWallet+1)` returns three accounts and a
`nil` error instead of the account-limit error. -/
theorem accountsFromSeed_no_limit_check :
    uncheckedEnv.MaxAccountsPerWallet + 1 = 3
      ∧ (accountsFromSeed uncheckedEnv ⟨List.replicate 64 7, []⟩
            (uncheckedEnv.MaxAccountsPerWallet + 1)).result
          = some ([List.replicate 32 7 ++ [0], List.replicate 32 7 ++ [1],
              List.replicate 32 7 ++ [2]], none) := by
  decide

/-- C5, amended. The account limit is enforced by the guard of
`NewMultiWalletFromMnemonic`, not by `accountsFromSeed`: for every `m`,
`NewMultiWalletFromMnemonic(m, MaxAccountsPerWallet+1)` returns a `nil` wallet
and the error "invalid number of accounts" without deriving a seed or a key.
For every seed of at least 32 bytes, `accountsFromSeed(seed, n)` has no limit
check, for `n = MaxAccountsPerWallet+1` as for every other `n`: when the master
key pair and the children `0, ..., n-1` derive it returns those `n` accounts,
and an error it returns is the error of `NewMasterKeyPair` or of a
`NewChildKeyPair(i)` with `i < n`, with no accounts. When the master key pair
derives, `accountsFromSeed(seed, 0)` derives nothing else, succeeds and yields
an empty sequence. -/
theorem accountsFromSeed_boundary {KP E : Type} (env : Env KP E) (seed : ByteSlice)
    (hlen : SeedSize ≤ seed.len) :
    (∀ now m : String,
        NewMultiWalletFromMnemonic env now m (env.MaxAccountsPerWallet + 1)
          = ⟨[], some (none, some (.Errorf "invalid number of accounts"))⟩)
      ∧ (∀ (n : Int) (master : KP),
          env.NewMasterKeyPair (seed.elems.take SeedSize) = .ok master →
          (∀ kids : List KP, kids.length = n.toNat →
              (∀ (i : Nat) (hi : i < kids.length),
                env.NewChildKeyPair master i = .ok (kids.get ⟨i, hi⟩)) →
              (accountsFromSeed env seed n).result = some (kids, none))
            ∧ (∀ (accts : List KP) (e : E),
                (accountsFromSeed env seed n).result = some (accts, some e) →
                accts = [] ∧ ∃ i : Nat, (i : Int) < n ∧ env.NewChildKeyPair master i = .error e))
      ∧ (∀ (n : Int) (e : E), env.NewMasterKeyPair (seed.elems.take SeedSize) = .error e →
          (accountsFromSeed env seed n).result = some ([], some e))
      ∧ (∀ master : KP, env.NewMasterKeyPair (seed.elems.take SeedSize) = .ok master →
          accountsFromSeed env seed 0
            = ⟨[.NewMasterKeyPair (seed.elems.take SeedSize)], some ([], none)⟩) := by
  have hcap := cap_of_len seed hlen
  have heq : ∀ k : Int, accountsFromSeed env seed k
      = match env.NewMasterKeyPair (seed.elems.take SeedSize) with
        | .error err => ⟨[.NewMasterKeyPair (seed.elems.take SeedSize)], some ([], some err)⟩
        | .ok masterKeyPair =>
          childLoop env masterKeyPair k.toNat 0 [.NewMasterKeyPair (seed.elems.take SeedSize)] [] := by
    intro k
    rw [accountsFromSeed_inBounds env seed k hcap, take_seed seed hlen]
  refine ⟨?_, ?_, ?_, ?_⟩
  · intro now m
    exact NewMultiWalletFromMnemonic_outOfRange env now m _ (Or.inr (by omega))
  · intro n master hm
    constructor
    · intro kids hklen hkids
      rw [heq n, hm]
      simp only
      rw [childLoop_ok env master n.toNat 0 _ [] kids hklen
        (fun j hj => by simpa using hkids j hj)]
      simp
    · intro accts e h
      rw [heq n, hm] at h
      simp only at h
      obtain ⟨hnil, j, hj, hjerr⟩ := childLoop_error_inv env master n.toNat 0 _ _ accts e h
      refine ⟨hnil, j, by omega, ?_⟩
      simpa using hjerr
  · intro n e hm
    rw [heq n, hm]
  · intro master hm
    rw [heq 0, hm]
    rfl

theorem accountsFromSeed_boundary_witness :
    NewMultiWalletFromMnemonic demoEnv "t0" "abandon about" (demoEnv.MaxAccountsPerWallet + 1)
        = ⟨[], some (none, some (.Errorf "invalid number of accounts"))⟩
      ∧ (accountsFromSeed uncheckedEnv ⟨List.replicate 64 7, []⟩ 3).result
        = some ([List.replicate 32 7 ++ [0], List.replicate 32 7 ++ [1],
            List.replicate 32 7 ++ [2]], none)
      ∧ accountsFromSeed demoEnv ⟨List.replicate 64 7, []⟩ 0
        = ⟨[.NewMasterKeyPair (List.replicate 32 7)], some ([], none)⟩ :=
  ⟨(accountsFromSeed_boundary demoEnv ⟨List.replicate 64 7, []⟩ (by decide)).1
      "t0" "abandon about",
    ((accountsFromSeed_boundary uncheckedEnv ⟨List.replicate 64 7, []⟩ (by decide)).2.1
      3 (List.replicate 32 7) (by decide)).1
      [List.replicate 32 7 ++ [0], List.replicate 32 7 ++ [1], List.replicate 32 7 ++ [2]]
      (by decide)
      (fun i hi => by
        have hi3 : i < 3 := hi
        have : i = 0 ∨ i = 1 ∨ i = 2 := by omega
        rcases this with rfl | rfl | rfl <;> rfl),
    (accountsFromSeed_boundary demoEnv ⟨List.replicate 64 7, []⟩ (by decide)).2.2.2
      (List.replicate 32 7) (by decide)⟩

/-- C9. All-or-nothing construction: for every `m` whose seed is the 64 bytes
that `bip39.NewSeed` produces and every `n`, `NewMultiWalletFromMnemonic(m, n)`
returns either a `nil` wallet with a non-nil error, or a wallet with a `nil`
error whose `Mnemonic()` is `m` and whose account sequence has exactly `n`
elements, with `n ≤ MaxAccountsPerWallet`; and when, in `accountsFromSeed`,
the derivation of child `i < n` fails after the children before it were
derived, `accountsFromSeed` returns no accounts and that error. -/
theorem NewMultiWalletFromMnemonic_all_or_nothing {KP E : Type} (env : Env KP E)
    (now m : String) (n : Int) (hseed : (env.NewSeed m "").elems.length = 64) :
    ((∃ e, (NewMultiWalletFromMnemonic env now m n).result = some (none, some e))
        ∨ (∃ w, (NewMultiWalletFromMnemonic env now m n).result = some (some w, none)
            ∧ w.Mnemonic = m ∧ (w.Secrets.Accounts.length : Int) = n
            ∧ n ≤ env.MaxAccountsPerWallet))
      ∧ (∀ (seed : ByteSlice) (master : KP) (i : Nat) (e : E), SeedSize ≤ seed.cap →
          env.NewMasterKeyPair ((seed.elems ++ seed.spare).take SeedSize) = .ok master →
          (i : Int) < n →
          (∀ j : Nat, j < i → ∃ kp, env.NewChildKeyPair master j = .ok kp) →
          env.NewChildKeyPair master i = .error e →
          (accountsFromSeed env seed n).result = some ([], some e)) := by
  constructor
  · by_cases hn : 0 ≤ n ∧ n ≤ env.MaxAccountsPerWallet
    · cases hv : env.IsMnemonicValid m with
      | false =>
        rw [NewMultiWalletFromMnemonic_invalid env now m n hn hv]
        exact Or.inl ⟨_, rfl⟩
      | true =>
        rw [NewMultiWalletFromMnemonic_valid env now m n hn hv]
        have hcap := seed64_cap env m hseed
        rcases accountsFromSeed_returns env (env.NewSeed m "") n hcap with ⟨accts, h⟩ | ⟨e, h⟩
        · rw [h]
          refine Or.inr ⟨_, rfl, rfl, ?_, hn.2⟩
          rw [accountsFromSeed_inBounds env _ n hcap] at h
          cases hm : env.NewMasterKeyPair
              (((env.NewSeed m "").elems ++ (env.NewSeed m "").spare).take SeedSize) with
          | error err => rw [hm] at h; simp at h
          | ok master =>
            rw [hm] at h
            obtain ⟨kids, hklen, hacc, _⟩ := childLoop_ok_inv env master n.toNat 0 _ _ accts h
            simp only [List.nil_append] at hacc
            subst hacc
            simp only [hklen]
            omega
        · rw [h]
          exact Or.inl ⟨_, rfl⟩
    · have hn2 : n < 0 ∨ n > env.MaxAccountsPerWallet := by omega
      rw [NewMultiWalletFromMnemonic_outOfRange env now m n hn2]
      exact Or.inl ⟨_, rfl⟩
  · intro seed master i e hcap hmaster hi hbefore hfail
    rw [accountsFromSeed_inBounds env seed n hcap, hmaster]
    simp only
    refine childLoop_fail env master n.toNat 0 _ _ i e ?_ ?_ ?_
    · omega
    · intro j hj
      obtain ⟨kp, hkp⟩ := hbefore j hj
      exact ⟨kp, by simpa using hkp⟩
    · simpa using hfail

theorem NewMultiWalletFromMnemonic_all_or_nothing_witness :
    (demoEnv.NewSeed "abandon about" "").elems.length = 64
      ∧ ((∃ e, (NewMultiWalletFromMnemonic demoEnv "t0" "abandon about" 2).result
              = some (none, some e))
        ∨ (∃ w, (NewMultiWalletFromMnemonic demoEnv "t0" "abandon about" 2).result
              = some (some w, none)
            ∧ w.Mnemonic = "abandon about" ∧ (w.Secrets.Accounts.length : Int) = 2
            ∧ (2 : Int) ≤ demoEnv.MaxAccountsPerWallet))
      ∧ (accountsFromSeed demoEnv ⟨List.replicate 64 7, []⟩ 5).result
          = some ([], some .AccountLimitExceeded) :=
  have h := NewMultiWalletFromMnemonic_all_or_nothing demoEnv "t0" "abandon about" 5 (by decide)
  ⟨by decide,
    (NewMultiWalletFromMnemonic_all_or_nothing demoEnv "t0" "abandon about" 2 (by decide)).1,
    h.2 ⟨List.replicate 64 7, []⟩ (List.replicate 32 7) 2 .AccountLimitExceeded
      (by decide) (by decide) (by decide)
      (fun j hj => ⟨List.replicate 32 7 ++ [Fin.ofNat j], by
        have : j = 0 ∨ j = 1 := by omega
        rcases this with rfl | rfl <;> decide⟩)
      (by decide)⟩

/-- C10, as the claim states it, fails on a three-byte seed: `accountsFromSeed`
returns no error at all, it aborts on the slice `seed[:32]` before
`NewMasterKeyPair` is called. -/
theorem accountsFromSeed_short_seed_aborts :
    (⟨[1, 2, 3], []⟩ : ByteSlice).len < SeedSize
      ∧ accountsFromSeed demoEnv ⟨[1, 2, 3], []⟩ 1 = ⟨[], none⟩
      ∧ (accountsFromSeed demoEnv ⟨[1, 2, 3], []⟩ 1).result
          ≠ some ([], some .InvalidSeedLength) := by
  decide

/-- C10, amended. Seed-length handling: `accountsFromSeed(seed, n)` slices
`seed[:32]` unchecked. For every seed whose capacity is below 32 bytes the
slice is out of bounds and the call aborts there, before any key derivation,
returning no error; for every seed with 32 bytes within its capacity the slice
is in bounds and the call returns; and along the path through
`NewMultiWalletFromMnemonic` the slice is always in bounds, because the seed
produced from a mnemonic is 64 bytes long. -/
theorem accountsFromSeed_slice_bounds {KP E : Type} (env : Env KP E) (seed : ByteSlice)
    (n : Int) :
    (seed.cap < SeedSize → accountsFromSeed env seed n = ⟨[], none⟩)
      ∧ (SeedSize ≤ seed.cap → (accountsFromSeed env seed n).result ≠ none)
      ∧ (∀ now m : String, (env.NewSeed m "").elems.length = 64 →
          (NewMultiWalletFromMnemonic env now m n).result ≠ none) := by
  refine ⟨?_, ?_, ?_⟩
  · intro h
    unfold accountsFromSeed
    rw [sliceTo_none seed h]
  · intro h
    rcases accountsFromSeed_returns env seed n h with ⟨accts, hr⟩ | ⟨e, hr⟩ <;> rw [hr] <;> simp
  · intro now m hseed
    by_cases hn : 0 ≤ n ∧ n ≤ env.MaxAccountsPerWallet
    · cases hv : env.IsMnemonicValid m with
      | false =>
        rw [NewMultiWalletFromMnemonic_invalid env now m n hn hv]
        simp
      | true =>
        rw [NewMultiWalletFromMnemonic_valid env now m n hn hv]
        rcases accountsFromSeed_returns env (env.NewSeed m "") n (seed64_cap env m hseed) with
          ⟨accts, h⟩ | ⟨e, h⟩ <;> rw [h] <;> simp
    · have hn2 : n < 0 ∨ n > env.MaxAccountsPerWallet := by omega
      rw [NewMultiWalletFromMnemonic_outOfRange env now m n hn2]
      simp

theorem accountsFromSeed_slice_bounds_witness :
    accountsFromSeed demoEnv ⟨[1, 2, 3], []⟩ 2 = ⟨[], none⟩
      ∧ (accountsFromSeed demoEnv ⟨[1, 2, 3], List.replicate 40 0⟩ 2).result ≠ none
      ∧ (NewMultiWalletFromMnemonic demoEnv "t0" "abandon about" 2).result ≠ none :=
  have h := accountsFromSeed_slice_bounds demoEnv ⟨[1, 2, 3], []⟩ 2
  ⟨h.1 (by decide),
    (accountsFromSeed_slice_bounds demoEnv ⟨[1, 2, 3], List.replicate 40 0⟩ 2).2.1 (by decide),
    h.2.2 "t0" "abandon about" (by decide)⟩

end Smcli
